import Mathlib

/-!
Shallow embedding of `testable.py`, a small analysis utility that scans a
directory tree for Python/shell source files, enumerates top-level class and
function definitions via `pyclbr`, attaches preceding route-style decorator
lines, and serializes the result as JSON.

Modelling conventions:
* Python strings are Lean `String`s; the Python string operations used by the
  source (`startswith`, `endswith`, `in`, `strip`) are defined below over the
  underlying character lists, mirroring Python semantics on ASCII whitespace.
* A raised exception (IndexError from out-of-range list indexing) is modelled
  by `Option`: `none` is an escaping exception, `some v` a normal return.
* The external facilities `os.walk`, `open`/`readlines` and
  `pyclbr.readmodule_ex` are inputs of the model: the walk order is a list of
  pairs (directory, filenames), file contents and module data are function
  parameters. Directory entries are taken as already absolute, so
  `os.path.abspath` is the identity on them.
-/

set_option autoImplicit false

namespace Testable

/-- ASCII whitespace stripped by Python `str.strip()`. -/
def isPySpace (c : Char) : Bool :=
  c = ' ' || c = '\t' || c = '\n' || c = '\r' || c = '\x0b' || c = '\x0c'

/-- Python `str.strip()` on a character list: drop leading and trailing
whitespace. -/
def pyStripList (l : List Char) : List Char :=
  ((l.dropWhile isPySpace).reverse.dropWhile isPySpace).reverse

/-- Python `s.strip()`. -/
def pyStrip (s : String) : String :=
  ⟨pyStripList s.data⟩

/-- Python `s.startswith(p)`. -/
def pyStartsWith (s p : String) : Bool :=
  p.data.isPrefixOf s.data

/-- Python `s.endswith(p)` for a single suffix. -/
def pyEndsWith (s p : String) : Bool :=
  p.data.isSuffixOf s.data

/-- Python `s.endswith(tuple)`: true when some listed suffix matches. -/
def pyEndsWithAny (s : String) (ps : List String) : Bool :=
  ps.any (pyEndsWith s)

/-- Occurrence of `pat` as a contiguous sublist of `l` (Python `pat in s`
on character lists). -/
def listHasSub (pat : List Char) : List Char → Bool
  | [] => pat.isEmpty
  | c :: t => pat.isPrefixOf (c :: t) || listHasSub pat t

/-- Python `pat in s` for strings. -/
def pyIn (pat s : String) : Bool :=
  listHasSub pat.data s.data

/-- Python `os.path.join(dir, base)` for an absolute `dir` and a plain file
name, as used by the tree walker. -/
def pyJoin (dir base : String) : String :=
  dir ++ "/" ++ base

/-- Root part of `os.path.splitext`: split at the last dot, except that the
dots leading a name do not count (".hidden" has no extension). -/
def splitextRoot (s : String) : String :=
  let l := s.data
  let lead := (l.takeWhile (fun c => c = '.')).length
  let cand := (List.range l.length).filter (fun i => decide (lead ≤ i) && decide (l.get? i = some '.'))
  match cand.getLast? with
  | some q => ⟨l.take q⟩
  | none => s

/-! ## Decorator Scanner: `Testable.get_routes`

The Python loop walks backward from index `lineno - 2`, collecting stripped
decorator lines that contain ".route(" and stopping at the first
non-decorator line or at the start of the file.  Indexing past the end of
`contents` raises IndexError, modelled by `none`. -/

/-- One backward scan step of `get_routes`, at a current 0-based index `i`.
The `none` result models the IndexError raised when `contents[i]` is out of
range (this can only happen on the first step, since the index only
decreases afterwards). -/
def get_routes_go (contents : List String) : Nat → List String → Option (List String)
  | i, routes =>
    match contents.get? i with
    | none => none
    | some line =>
      if pyStartsWith line "@" then
        let routes := if pyIn ".route(" line then routes ++ [pyStrip line] else routes
        match i with
        | 0 => some routes
        | i' + 1 => get_routes_go contents i' routes
      else some routes

/-- `Testable.get_routes(contents, lineno)`: collect the route decorator
lines immediately preceding the definition at 1-based line `lineno`.
Returns `none` when the Python code raises IndexError. -/
def get_routes (contents : List String) (lineno : Int) : Option (List String) :=
  if lineno - 2 < 0 then some []
  else get_routes_go contents (lineno - 2).toNat []

/-- Fuel-indexed transcription of the `while True` loop of `get_routes`,
one constructor per loop iteration.  The state is the Python variable
`lineno` as it stands at the top of the loop body (before the decrement).
The outer `Option` is fuel exhaustion (`none` = the loop was cut short);
the inner `Option` distinguishes IndexError from a normal return. -/
def get_routes_steps (contents : List String) : Nat → Int → List String → Option (Option (List String))
  | 0, _, _ => none
  | fuel + 1, lineno, routes =>
    let l := lineno - 1
    if l < 0 then some (some routes)
    else
      match contents.get? l.toNat with
      | none => some none
      | some line =>
        if pyStartsWith line "@" then
          get_routes_steps contents fuel l
            (if pyIn ".route(" line then routes ++ [pyStrip line] else routes)
        else some (some routes)

/-! ## Data model: pyclbr descriptors, `Result`, and the JSON encoder -/

/-- The fields of a `pyclbr` top-level descriptor used by the program:
originating file, definition name, 1-based line number, and the class name of
the descriptor (`"Class"` or `"Function"`), which the source reads through
`obj.__class__.__name__`. -/
structure PyObj where
  file : String
  name : String
  lineno : Int
  kind : String
deriving Repr, DecidableEq

/-- The `Result` wrapper built by `Result.__init__` when called as
`Result(obj)` inside `find` (no `type` keyword, so `obj_type` is the
descriptor's class name, and `routes` starts empty before the assignment on
the line after the append). We record the final `routes` value. -/
structure Result where
  obj : PyObj
  obj_type : String
  routes : List String
deriving Repr, DecidableEq

/-- `Result(obj)` before its `routes` attribute is reassigned. -/
def Result.make (obj : PyObj) : Result :=
  ⟨obj, obj.kind, []⟩

/-- The aggregated result mapping: a Python dict from full path to list of
results, in insertion order. -/
abbrev ResMap := List (String × List Result)

/-- `if full_path not in results: results[full_path] = []` -/
def addKey (m : ResMap) (k : String) : ResMap :=
  if m.any (fun kv => kv.1 = k) then m else m ++ [(k, [])]

/-- The effect of `results[k].append(...)` for each element of `rs`. -/
def appendAt (m : ResMap) (k : String) (rs : List Result) : ResMap :=
  m.map (fun kv => if kv.1 = k then (kv.1, kv.2 ++ rs) else kv)

/-- The inner loop of `find` over `module_data.items()`: keep descriptors
whose file starts with `top` and equals `full`, build a `Result` for each and
attach its routes.  `none` propagates an IndexError escaping `get_routes`. -/
def processItems (top full : String) (contents : List String) :
    List (String × PyObj) → List Result → Option (List Result)
  | [], acc => some acc
  | (_, obj) :: rest, acc =>
    if pyStartsWith obj.file top then
      if obj.file = full then
        match get_routes contents obj.lineno with
        | none => none
        | some rs => processItems top full contents rest (acc ++ [{ Result.make obj with routes := rs }])
      else processItems top full contents rest acc
    else processItems top full contents rest acc

/-- The loop of `find` over the filenames of one directory.  `selfF` is the
value of the Python global `__file__`, compared against each (base) file
name; `readF` models `open(path).readlines()` and `readM` models
`pyclbr.readmodule_ex(module, [parent])`. -/
def processFiles (top selfF : String) (readF : String → List String)
    (readM : String → String → List (String × PyObj)) (exts : List String)
    (parent : String) : List String → ResMap → Option ResMap
  | [], m => some m
  | fname :: rest, m =>
    if fname = selfF then processFiles top selfF readF readM exts parent rest m
    else
      if pyEndsWithAny fname exts then
        match processItems top (pyJoin parent fname) (readF (pyJoin parent fname))
            (readM (splitextRoot fname) parent) [] with
        | none => none
        | some rs =>
          processFiles top selfF readF readM exts parent rest
            (appendAt (addKey m (pyJoin parent fname)) (pyJoin parent fname) rs)
      else processFiles top selfF readF readM exts parent rest m

/-- The outer loop of `Testable.find` over `os.walk(top_dir, topdown=False)`,
whose (bottom-up) order is the order of the `walk` list. -/
def findLoop (top selfF : String) (readF : String → List String)
    (readM : String → String → List (String × PyObj)) (exts : List String) :
    List (String × List String) → ResMap → Option ResMap
  | [], m => some m
  | (parent, files) :: rest, m =>
    match processFiles top selfF readF readM exts parent files m with
    | none => none
    | some m1 => findLoop top selfF readF readM exts rest m1

/-- `Testable.find`: run the walk starting from the empty dict. -/
def find (top selfF : String) (readF : String → List String)
    (readM : String → String → List (String × PyObj)) (exts : List String)
    (walk : List (String × List String)) : Option ResMap :=
  findLoop top selfF readF readM exts walk []

/-- JSON values produced by `json.dumps`. -/
inductive Json where
  | str : String → Json
  | num : Int → Json
  | arr : List Json → Json
  | obj : List (String × Json) → Json
deriving Repr

/-- `ResultJSONEncoder.default` on a `Result`: note the extra wrapping
object keyed by the descriptor's file path. -/
def encodeResult (r : Result) : Json :=
  .obj [(r.obj.file,
    .obj [("type", .str r.obj_type),
          ("name", .str r.obj.name),
          ("lineno", .num r.obj.lineno),
          ("routes", .arr (r.routes.map Json.str))])]

/-- `json.dumps(results, cls=ResultJSONEncoder)`: the dict becomes an
object, each value list an array, each `Result` goes through
`ResultJSONEncoder.default`. -/
def encodeResults (m : ResMap) : Json :=
  .obj (m.map (fun kv => (kv.1, Json.arr (kv.2.map encodeResult))))

/-- The `analyze` pipeline: `find` followed by serialization (pretty
printing is a presentation detail and is not modelled). -/
def analyzeOutput (top selfF : String) (readF : String → List String)
    (readM : String → String → List (String × PyObj)) (exts : List String)
    (walk : List (String × List String)) : Option Json :=
  (find top selfF readF readM exts walk).map encodeResults

/-- The full paths of one directory entry of the walk that the tree walker
analyzes: its files other than the analyzer's own source, with a recognized
extension, joined to the directory. -/
def pathsOfDir (selfF : String) (exts : List String) (parent : String)
    (files : List String) : List String :=
  (files.filter (fun f => f != selfF && pyEndsWithAny f exts)).map (fun f => pyJoin parent f)

/-- All full paths that the tree walker analyzes, in walk order. -/
def allPaths (selfF : String) (exts : List String) : List (String × List String) → List String
  | [] => []
  | e :: rest => pathsOfDir selfF exts e.1 e.2 ++ allPaths selfF exts rest

/-! ### A concrete end-to-end example

One root directory `/r` holding one file `m.py`, whose three lines are the
spec's end-to-end scenario; the structural introspection reports the single
function `handler` at line 3. -/

def exPath : String := "/r/m.py"

def exLines : List String :=
  ["@app.route(\x27/x\x27)", "@login_required", "def handler():"]

def exObj : PyObj := ⟨exPath, "handler", 3, "Function"⟩

def exReadF : String → List String := fun _ => exLines

def exReadM : String → String → List (String × PyObj) := fun _ _ => [("handler", exObj)]

def exWalk : List (String × List String) := [("/r", ["m.py"])]

def exMap : ResMap := [(exPath, [⟨exObj, "Function", ["@app.route(\x27/x\x27)"]⟩])]

/-- The bare four-field record the spec describes for the example. -/
def exInner : Json :=
  Json.obj [("type", Json.str "Function"), ("name", Json.str "handler"),
    ("lineno", Json.num 3), ("routes", Json.arr [Json.str "@app.route(\x27/x\x27)"])]

/-- A second introspection answer declaring two functions, `handler` at
line 3 and `helper` at line 1, used as a witness input. -/
def exObjB : PyObj := ⟨exPath, "helper", 1, "Function"⟩

def exReadM2 : String → String → List (String × PyObj) :=
  fun _ _ => [("handler", exObj), ("helper", exObjB)]

def exMap2 : ResMap :=
  [(exPath, [⟨exObj, "Function", ["@app.route(\x27/x\x27)"]⟩, ⟨exObjB, "Function", []⟩])]

/-! ## Characterization of the backward decorator scan -/

/-- The value the backward scan is specified to compute for a definition
preceded by `n` lines: among the lines before it (nearest first), take the
contiguous run of decorator lines, keep those containing ".route(", and
strip each. -/
def routesSpec (contents : List String) (n : Nat) : List String :=
  (((contents.take n).reverse.takeWhile (fun s => pyStartsWith s "@")).filter
    (fun s => pyIn ".route(" s)).map pyStrip

theorem routesSpec_zero (contents : List String) : routesSpec contents 0 = [] := rfl

theorem routesSpec_succ (contents : List String) (n : Nat) (line : String)
    (h : contents.get? n = some line) :
    routesSpec contents (n + 1) =
      if pyStartsWith line "@" then
        (if pyIn ".route(" line then [pyStrip line] else []) ++ routesSpec contents n
      else [] := by
  unfold routesSpec
  rw [List.take_succ]
  rw [List.get?_eq_getElem?] at h
  rw [h]
  simp only [Option.toList_some, List.reverse_append, List.reverse_cons, List.reverse_nil,
    List.nil_append, List.singleton_append, List.takeWhile_cons]
  by_cases hp : pyStartsWith line "@"
  · simp only [hp, if_true, List.filter_cons]
    by_cases hq : pyIn ".route(" line
    · simp [hq]
    · simp [hq]
  · simp [hp]

theorem get_routes_go_spec (contents : List String) (i : Nat) :
    ∀ acc : List String, i < contents.length →
      get_routes_go contents i acc = some (acc ++ routesSpec contents (i + 1)) := by
  induction i with
  | zero =>
    intro acc h
    rw [get_routes_go]
    cases hline : contents.get? 0 with
    | none =>
      rw [List.get?_eq_none] at hline
      omega
    | some line =>
      rw [routesSpec_succ contents 0 line hline]
      by_cases hp : pyStartsWith line "@"
      · by_cases hq : pyIn ".route(" line <;> simp [hp, hq, routesSpec_zero]
      · simp [hp]
  | succ n ih =>
    intro acc h
    have hn : n < contents.length := Nat.lt_of_succ_lt h
    rw [get_routes_go]
    cases hline : contents.get? (n + 1) with
    | none =>
      rw [List.get?_eq_none] at hline
      omega
    | some line =>
      rw [routesSpec_succ contents (n + 1) line hline]
      by_cases hp : pyStartsWith line "@"
      · by_cases hq : pyIn ".route(" line <;> simp [hp, hq, ih _ hn]
      · simp [hp]

/-- C1 (counterexample): on the empty list of lines with `lineno = 3` the
start index 1 is past the end, and `get_routes` raises IndexError (modelled
as `none`) instead of returning a list. -/
theorem get_routes_indexerror_on_nil : get_routes ([] : List String) 3 = none := rfl

/-- C1 (amended): `get_routes` returns normally with a (possibly empty)
list of strings whenever the starting index `lineno - 2` is negative or
strictly below the number of lines; a starting index at or past the end of
the list raises IndexError instead. -/
theorem get_routes_total_of_start_lt_length (contents : List String) (lineno : Int)
    (h : lineno - 2 < (contents.length : Int)) :
    ∃ routes : List String, get_routes contents lineno = some routes := by
  unfold get_routes
  by_cases hneg : lineno - 2 < 0
  · exact ⟨[], by simp [hneg]⟩
  · have hi : (lineno - 2).toNat < contents.length := by omega
    refine ⟨routesSpec contents ((lineno - 2).toNat + 1), ?_⟩
    simp only [hneg, if_false]
    simpa using get_routes_go_spec contents _ [] hi

/-- Witness for C1's amended theorem at a concrete in-range input. -/
theorem get_routes_total_witness :
    ∃ routes : List String, get_routes ["def f():"] 1 = some routes :=
  get_routes_total_of_start_lt_length ["def f():"] 1 (by decide)

/-- C2: for a definition at 1-based line `L` that lies within the file
(or at most one past its last line), the scan returns exactly the stripped
text of the route-matching lines of the contiguous run of decorator lines
immediately preceding the definition, nearest-to-definition first; a
non-matching decorator line is skipped without stopping the scan, while the
first non-decorator line (or the start of file) stops it. -/
theorem get_routes_contiguous_characterization (contents : List String) (L : Nat)
    (h : L ≤ contents.length + 1) :
    get_routes contents (L : Int) = some (routesSpec contents (L - 1)) := by
  unfold get_routes
  by_cases hneg : (L : Int) - 2 < 0
  · have : L - 1 = 0 := by omega
    rw [this, routesSpec_zero]
    simp [hneg]
  · have h2 : 2 ≤ L := by omega
    have hi : ((L : Int) - 2).toNat < contents.length := by omega
    have hL : ((L : Int) - 2).toNat + 1 = L - 1 := by omega
    simp only [hneg, if_false]
    rw [get_routes_go_spec contents _ [] hi, hL]
    simp

/-- Witness for C2 at the spec's end-to-end example: of the two contiguous
decorator lines above line 3, only the one containing ".route(" is kept. -/
theorem get_routes_contiguous_witness :
    get_routes ["@app.route(\x27/x\x27)", "@login_required", "def handler():"] (3 : Nat) =
      some (routesSpec ["@app.route(\x27/x\x27)", "@login_required", "def handler():"] 2) ∧
    routesSpec ["@app.route(\x27/x\x27)", "@login_required", "def handler():"] 2 =
      ["@app.route(\x27/x\x27)"] :=
  ⟨get_routes_contiguous_characterization _ 3 (by decide), rfl⟩

/-! ## Termination of the scan loop (C8) -/

theorem get_routes_steps_agrees (contents : List String) (i : Nat) :
    ∀ (f : Nat) (acc : List String), i + 1 ≤ f →
      get_routes_steps contents (f + 1) ((i : Int) + 1) acc =
        some (get_routes_go contents i acc) := by
  induction i with
  | zero =>
    intro f acc hf
    obtain ⟨f1, rfl⟩ : ∃ f1, f = f1 + 1 := ⟨f - 1, by omega⟩
    rw [get_routes_steps, get_routes_go]
    have h0 : (((0 : Nat) : Int) + 1) - 1 = 0 := by norm_num
    rw [h0]
    simp only [show ¬((0 : Int) < 0) from by omega, if_false, Int.toNat_zero]
    cases hget : contents.get? 0 with
    | none => rfl
    | some line =>
      by_cases hp : pyStartsWith line "@"
      · simp only [hp, if_true]
        rw [get_routes_steps]
        simp
      · simp [hp]
  | succ n ih =>
    intro f acc hf
    obtain ⟨f1, rfl⟩ : ∃ f1, f = f1 + 1 := ⟨f - 1, by omega⟩
    rw [get_routes_steps, get_routes_go]
    have h1 : ((n + 1 : Nat) : Int) + 1 - 1 = (n : Int) + 1 := by push_cast; ring
    rw [h1]
    have h2 : ¬((n : Int) + 1 < 0) := by omega
    have h3 : ((n : Int) + 1).toNat = n + 1 := by omega
    simp only [h2, if_false, h3]
    cases hget : contents.get? (n + 1) with
    | none => rfl
    | some line =>
      by_cases hp : pyStartsWith line "@"
      · simp only [hp, if_true]
        exact ih f1 _ (by omega)
      · simp [hp]

/-- C8: the `while True` loop of `get_routes` terminates on every input.
`get_routes_steps` runs the loop one iteration per unit of fuel; with the
computable fuel bound `(lineno - 2).toNat + 2` the loop reaches a definite
outcome (normal return or IndexError), namely the value of `get_routes`. -/
theorem get_routes_loop_terminates (contents : List String) (lineno : Int) :
    get_routes_steps contents ((lineno - 2).toNat + 2) (lineno - 1) [] =
      some (get_routes contents lineno) := by
  unfold get_routes
  by_cases hneg : lineno - 2 < 0
  · have : (lineno - 2).toNat + 2 = 0 + 1 + 1 := by omega
    rw [this, get_routes_steps]
    have h1 : lineno - 1 - 1 = lineno - 2 := by omega
    rw [h1]
    simp [hneg]
  · have h0 : 0 ≤ lineno - 2 := by omega
    have h1 : lineno - 1 = (((lineno - 2).toNat : Int)) + 1 := by omega
    have h2 : (lineno - 2).toNat + 2 = ((lineno - 2).toNat + 1) + 1 := by omega
    rw [h1, h2, get_routes_steps_agrees contents _ _ [] (by omega)]
    simp [hneg]

/-! ## Shape of collected route strings (C10)

Helper lemmas about `pyStripList`, `isPrefixOf` and `listHasSub`, proved
over plain character lists. -/

theorem isPrefixOf_eq_append {α : Type} [BEq α] [LawfulBEq α] (p : List α) :
    ∀ l : List α, p.isPrefixOf l = true ↔ ∃ t, l = p ++ t := by
  induction p with
  | nil =>
    intro l
    simp
  | cons a p ih =>
    intro l
    cases l with
    | nil =>
      simp
    | cons b t =>
      rw [List.isPrefixOf_cons₂]
      constructor
      · intro h
        obtain ⟨hab, hpt⟩ := Bool.and_eq_true_iff.mp h
        obtain ⟨u, rfl⟩ := (ih t).mp hpt
        refine ⟨u, ?_⟩
        rw [eq_of_beq hab]
        rfl
      · rintro ⟨u, hu⟩
        have hu2 : b :: t = a :: (p ++ u) := hu
        injection hu2 with h1 h2
        refine Bool.and_eq_true_iff.mpr ⟨?_, (ih _).mpr ⟨u, h2⟩⟩
        rw [h1]
        exact beq_self_eq_true a

theorem listHasSub_eq_append (pat : List Char) :
    ∀ l : List Char, listHasSub pat l = true ↔ ∃ a b, l = a ++ pat ++ b := by
  intro l
  induction l with
  | nil =>
    simp only [listHasSub]
    constructor
    · intro h
      have hpat : pat = [] := by
        cases pat with
        | nil => rfl
        | cons x p => simp [List.isEmpty] at h
      subst hpat
      exact ⟨[], [], rfl⟩
    · rintro ⟨a, b, h⟩
      have h2 : a ++ pat ++ b = [] := h.symm
      rw [List.append_eq_nil, List.append_eq_nil] at h2
      obtain ⟨⟨-, rfl⟩, -⟩ := h2
      rfl
  | cons c t ih =>
    rw [listHasSub, Bool.or_eq_true]
    constructor
    · rintro (hpre | hsub)
      · obtain ⟨u, hu⟩ := (isPrefixOf_eq_append pat (c :: t)).mp hpre
        exact ⟨[], u, by simpa using hu⟩
      · obtain ⟨a, b, rfl⟩ := ih.mp hsub
        exact ⟨c :: a, b, rfl⟩
    · rintro ⟨a, b, hab⟩
      cases a with
      | nil =>
        left
        exact (isPrefixOf_eq_append pat (c :: t)).mpr ⟨b, by simpa using hab⟩
      | cons x a =>
        right
        refine ih.mpr ⟨a, b, ?_⟩
        have hab2 : x :: (a ++ pat ++ b) = c :: t := by simpa using hab.symm
        injection hab2 with h1 h2
        exact h2.symm

theorem dropWhile_head_false {α : Type} (p : α → Bool) :
    ∀ (l : List α) (c : α) (t : List α), l.dropWhile p = c :: t → p c = false := by
  intro l
  induction l with
  | nil =>
    intro c t h
    simp [List.dropWhile] at h
  | cons x l ih =>
    intro c t h
    rw [List.dropWhile_cons] at h
    by_cases hx : p x
    · rw [if_pos hx] at h
      exact ih c t h
    · rw [if_neg hx] at h
      injection h with h1 h2
      rw [← h1]
      cases hpx : p x with
      | false => rfl
      | true => exact absurd hpx hx

theorem dropWhile_append_cons {α : Type} (p : α → Bool) (c : α) (hc : p c = false)
    (rest : List α) :
    ∀ a : List α, ∃ a2, List.dropWhile p (a ++ c :: rest) = a2 ++ c :: rest := by
  intro a
  induction a with
  | nil =>
    refine ⟨[], ?_⟩
    rw [List.nil_append, List.dropWhile_cons, if_neg (by simp [hc])]
  | cons x a ih =>
    by_cases hx : p x
    · obtain ⟨a2, ha2⟩ := ih
      refine ⟨a2, ?_⟩
      rw [List.cons_append, List.dropWhile_cons, if_pos hx, ha2]
    · refine ⟨x :: a, ?_⟩
      rw [List.cons_append, List.dropWhile_cons, if_neg hx]

theorem pyStripList_eq_rdrop (l : List Char) :
    pyStripList l = List.rdropWhile isPySpace (l.dropWhile isPySpace) := rfl

theorem pyStripList_idem (l : List Char) : pyStripList (pyStripList l) = pyStripList l := by
  rw [pyStripList_eq_rdrop l]
  have hdrop : (List.rdropWhile isPySpace (l.dropWhile isPySpace)).dropWhile isPySpace =
      List.rdropWhile isPySpace (l.dropWhile isPySpace) := by
    obtain ⟨t, ht⟩ := List.rdropWhile_prefix isPySpace (l.dropWhile isPySpace)
    cases hB : List.rdropWhile isPySpace (l.dropWhile isPySpace) with
    | nil => rfl
    | cons c b =>
      have hAc : l.dropWhile isPySpace = c :: (b ++ t) := by
        rw [← ht, hB]
        simp
      have hcA : isPySpace c = false := dropWhile_head_false isPySpace l c (b ++ t) hAc
      rw [List.dropWhile_cons, if_neg (by simp [hcA])]
  rw [pyStripList_eq_rdrop, hdrop, List.rdropWhile_idempotent]

theorem pyStripList_cons_of_not_space (c : Char) (t : List Char) (hc : isPySpace c = false) :
    ∃ t2, pyStripList (c :: t) = c :: t2 := by
  rw [pyStripList_eq_rdrop, List.dropWhile_cons, if_neg (by simp [hc])]
  have hne : List.rdropWhile isPySpace (c :: t) ≠ [] := by
    intro heq
    have hcs := List.rdropWhile_eq_nil_iff.mp heq c (by simp)
    rw [hc] at hcs
    exact Bool.false_ne_true hcs
  obtain ⟨u, hu⟩ := List.rdropWhile_prefix isPySpace (c :: t)
  cases hB : List.rdropWhile isPySpace (c :: t) with
  | nil => exact absurd hB hne
  | cons d b =>
    rw [hB] at hu
    have hdc : d :: (b ++ u) = c :: t := by simpa using hu
    injection hdc with h1 h2
    exact ⟨b, by rw [h1]⟩

theorem listHasSub_pyStripList (pat : List Char) (q1 : Char) (p1 : List Char)
    (hpat : pat = q1 :: p1) (hq1 : isPySpace q1 = false)
    (q2 : Char) (p2 : List Char) (hrev : pat.reverse = q2 :: p2) (hq2 : isPySpace q2 = false)
    (l : List Char) (h : listHasSub pat l = true) :
    listHasSub pat (pyStripList l) = true := by
  obtain ⟨a, b, rfl⟩ := (listHasSub_eq_append pat l).mp h
  obtain ⟨a2, ha2⟩ := dropWhile_append_cons isPySpace q1 hq1 (p1 ++ b) a
  have e1 : a ++ pat ++ b = a ++ q1 :: (p1 ++ b) := by
    rw [hpat]
    simp
  have ha2' : List.dropWhile isPySpace (a ++ pat ++ b) = a2 ++ pat ++ b := by
    rw [e1, ha2, hpat]
    simp
  obtain ⟨b2, hb2⟩ := dropWhile_append_cons isPySpace q2 hq2 (p2 ++ a2.reverse) b.reverse
  have e2 : (a2 ++ pat ++ b).reverse = b.reverse ++ q2 :: (p2 ++ a2.reverse) := by
    rw [List.reverse_append, List.reverse_append, hrev]
    simp
  have hfinal : pyStripList (a ++ pat ++ b) = a2 ++ pat ++ b2.reverse := by
    rw [pyStripList_eq_rdrop, ha2', List.rdropWhile, e2, hb2]
    rw [show b2 ++ q2 :: (p2 ++ a2.reverse) = b2 ++ (q2 :: p2) ++ a2.reverse by simp, ← hrev]
    simp
  rw [hfinal]
  exact (listHasSub_eq_append pat _).mpr ⟨a2, b2.reverse, rfl⟩

theorem get_routes_go_shape (contents : List String) (i : Nat) :
    ∀ acc rs : List String, get_routes_go contents i acc = some rs → ∀ s ∈ rs,
      s ∈ acc ∨ ∃ line, pyStartsWith line "@" = true ∧ pyIn ".route(" line = true ∧
        s = pyStrip line := by
  induction i with
  | zero =>
    intro acc rs h s hs
    rw [get_routes_go] at h
    cases hget : contents.get? 0 with
    | none =>
      rw [hget] at h
      exact absurd h (by simp)
    | some line =>
      rw [hget] at h
      by_cases hp : pyStartsWith line "@"
      · by_cases hq : pyIn ".route(" line
        · simp only [hp, hq, if_true] at h
          injection h with h2
          rw [← h2] at hs
          rcases List.mem_append.mp hs with hmem | hmem
          · exact Or.inl hmem
          · exact Or.inr ⟨line, hp, hq, by simpa using hmem⟩
        · simp only [hp, hq, if_true, if_false] at h
          injection h with h2
          rw [← h2] at hs
          exact Or.inl hs
      · simp only [hp, if_false] at h
        injection h with h2
        rw [← h2] at hs
        exact Or.inl hs
  | succ n ih =>
    intro acc rs h s hs
    rw [get_routes_go] at h
    cases hget : contents.get? (n + 1) with
    | none =>
      rw [hget] at h
      exact absurd h (by simp)
    | some line =>
      rw [hget] at h
      by_cases hp : pyStartsWith line "@"
      · by_cases hq : pyIn ".route(" line
        · simp only [hp, hq, if_true] at h
          rcases ih _ _ h s hs with hmem | hout
          · rcases List.mem_append.mp hmem with hmem2 | hmem2
            · exact Or.inl hmem2
            · exact Or.inr ⟨line, hp, hq, by simpa using hmem2⟩
          · exact Or.inr hout
        · simp only [hp, hq, if_true, if_false] at h
          rcases ih _ _ h s hs with hmem | hout
          · exact Or.inl hmem
          · exact Or.inr hout
      · simp only [hp, if_false] at h
        injection h with h2
        rw [← h2] at hs
        exact Or.inl hs

/-- C10: every string collected into a routes list begins with the
decorator marker, contains the route substring, and is its own stripped
form. -/
theorem routes_shape_invariant (contents : List String) (lineno : Int) (routes : List String)
    (h : get_routes contents lineno = some routes) :
    ∀ s ∈ routes,
      pyStartsWith s "@" = true ∧ pyIn ".route(" s = true ∧ pyStrip s = s := by
  intro s hs
  unfold get_routes at h
  by_cases hneg : lineno - 2 < 0
  · rw [if_pos hneg] at h
    injection h with h2
    rw [← h2] at hs
    simp at hs
  · rw [if_neg hneg] at h
    rcases get_routes_go_shape contents _ [] routes h s hs with h0 | ⟨line, hp, hq, rfl⟩
    · simp at h0
    · refine ⟨?_, ?_, ?_⟩
      · obtain ⟨t, ht⟩ := (isPrefixOf_eq_append "@".data line.data).mp hp
        have ht2 : line.data = '@' :: t := ht
        have hat : isPySpace '@' = false := by decide
        obtain ⟨t2, ht3⟩ : ∃ t2, pyStripList line.data = '@' :: t2 := by
          rw [ht2]
          exact pyStripList_cons_of_not_space '@' t hat
        show ("@".data).isPrefixOf (pyStripList line.data) = true
        exact (isPrefixOf_eq_append "@".data _).mpr ⟨t2, by rw [ht3]; rfl⟩
      · show listHasSub (".route(".data) (pyStripList line.data) = true
        refine listHasSub_pyStripList (".route(".data) '.' ("route(".data) rfl (by decide)
          '(' (".route(".data.reverse.drop 1) ?_ (by decide) line.data hq
        rfl
      · show (⟨pyStripList (pyStripList line.data)⟩ : String) = ⟨pyStripList line.data⟩
        rw [pyStripList_idem]

/-- Witness for C10 at a concrete scan: the collected string for a padded
route decorator line has the three claimed properties. -/
theorem routes_shape_invariant_witness :
    pyStartsWith "@app.route(\x27/x\x27)" "@" = true ∧
    pyIn ".route(" "@app.route(\x27/x\x27)" = true ∧
    pyStrip "@app.route(\x27/x\x27)" = "@app.route(\x27/x\x27)" :=
  routes_shape_invariant ["@app.route(\x27/x\x27)  \n", "def f():"] 2
    ["@app.route(\x27/x\x27)"] (by decide) "@app.route(\x27/x\x27)" (by simp)

/-! ## The inner item loop: produced records -/

theorem processItems_spec (top full : String) (contents : List String) :
    ∀ (items : List (String × PyObj)) (acc out : List Result),
      processItems top full contents items acc = some out →
      ∃ prod, out = acc ++ prod ∧
        (∀ r ∈ prod, r.obj.file = full) ∧
        ((∀ q ∈ items, q.2.name = q.1) →
          List.Sublist (prod.map (fun r => r.obj.name)) (items.map Prod.fst)) := by
  intro items
  induction items with
  | nil =>
    intro acc out h
    rw [processItems] at h
    injection h with h2
    refine ⟨[], by simp [← h2], by simp, ?_⟩
    intro
    simp
  | cons q rest ih =>
    intro acc out h
    obtain ⟨n, obj⟩ := q
    rw [processItems] at h
    by_cases h1 : pyStartsWith obj.file top
    · rw [if_pos h1] at h
      by_cases h2 : obj.file = full
      · rw [if_pos h2] at h
        cases hg : get_routes contents obj.lineno with
        | none =>
          rw [hg] at h
          exact absurd h (by simp)
        | some rs =>
          rw [hg] at h
          obtain ⟨prod, hout, hfile, hnames⟩ := ih _ _ h
          refine ⟨{ Result.make obj with routes := rs } :: prod, ?_, ?_, ?_⟩
          · rw [hout]
            simp
          · intro r hr
            rcases List.mem_cons.mp hr with rfl | hr2
            · exact h2
            · exact hfile r hr2
          · intro hkeys
            have hname : obj.name = n := hkeys (n, obj) (by simp)
            simp only [List.map_cons]
            rw [show ({ Result.make obj with routes := rs } : Result).obj.name = obj.name from rfl,
              hname]
            exact List.Sublist.cons₂ n (hnames (fun q hq => hkeys q (by simp [hq])))
      · rw [if_neg h2] at h
        obtain ⟨prod, hout, hfile, hnames⟩ := ih _ _ h
        refine ⟨prod, hout, hfile, ?_⟩
        intro hkeys
        exact (hnames (fun q hq => hkeys q (by simp [hq]))).trans
          (List.sublist_cons_self _ _)
    · rw [if_neg h1] at h
      obtain ⟨prod, hout, hfile, hnames⟩ := ih _ _ h
      refine ⟨prod, hout, hfile, ?_⟩
      intro hkeys
      exact (hnames (fun q hq => hkeys q (by simp [hq]))).trans
        (List.sublist_cons_self _ _)

/-! ## Keys and values of the accumulated mapping -/

theorem appendAt_map_fst (k : String) (rs : List Result) :
    ∀ m : ResMap, (appendAt m k rs).map Prod.fst = m.map Prod.fst := by
  intro m
  induction m with
  | nil => rfl
  | cons kv m ih =>
    simp only [appendAt, List.map_cons] at *
    by_cases h : kv.1 = k
    · simp [h, ih]
    · simp [h, ih]

theorem mem_map_fst_addKey (m : ResMap) (k p : String) :
    p ∈ (addKey m k).map Prod.fst ↔ p ∈ m.map Prod.fst ∨ p = k := by
  unfold addKey
  by_cases h : m.any (fun kv => kv.1 = k)
  · rw [if_pos h]
    constructor
    · exact Or.inl
    · rintro (hm | rfl)
      · exact hm
      · obtain ⟨kv, hkv, he⟩ := List.any_eq_true.mp h
        exact List.mem_map.mpr ⟨kv, hkv, of_decide_eq_true he⟩
  · rw [if_neg h, List.map_append]
    simp

theorem fileInv_addKey (m : ResMap) (k : String)
    (h : ∀ kv ∈ m, ∀ r ∈ kv.2, r.obj.file = kv.1) :
    ∀ kv ∈ addKey m k, ∀ r ∈ kv.2, r.obj.file = kv.1 := by
  unfold addKey
  by_cases hc : m.any (fun kv => kv.1 = k)
  · rwa [if_pos hc]
  · rw [if_neg hc]
    intro kv hkv r hr
    rcases List.mem_append.mp hkv with h1 | h1
    · exact h kv h1 r hr
    · have hk : kv = (k, []) := by simpa using h1
      subst hk
      simp at hr

theorem fileInv_appendAt (m : ResMap) (k : String) (rs : List Result)
    (h : ∀ kv ∈ m, ∀ r ∈ kv.2, r.obj.file = kv.1)
    (hrs : ∀ r ∈ rs, r.obj.file = k) :
    ∀ kv ∈ appendAt m k rs, ∀ r ∈ kv.2, r.obj.file = kv.1 := by
  intro kv hkv r hr
  unfold appendAt at hkv
  rcases List.mem_map.mp hkv with ⟨kv0, hkv0, rfl⟩
  by_cases hk : kv0.1 = k
  · rw [if_pos hk] at hr ⊢
    rcases List.mem_append.mp hr with h1 | h1
    · exact h kv0 hkv0 r h1
    · rw [hrs r h1, hk]
  · rw [if_neg hk] at hr ⊢
    exact h kv0 hkv0 r hr

theorem processFiles_fileInv (top selfF : String) (readF : String → List String)
    (readM : String → String → List (String × PyObj)) (exts : List String) (parent : String) :
    ∀ (files : List String) (m m2 : ResMap),
      (∀ kv ∈ m, ∀ r ∈ kv.2, r.obj.file = kv.1) →
      processFiles top selfF readF readM exts parent files m = some m2 →
      ∀ kv ∈ m2, ∀ r ∈ kv.2, r.obj.file = kv.1 := by
  intro files
  induction files with
  | nil =>
    intro m m2 hInv hp
    rw [processFiles] at hp
    injection hp with h2
    rwa [← h2]
  | cons fname rest ih =>
    intro m m2 hInv hp
    rw [processFiles] at hp
    by_cases h1 : fname = selfF
    · rw [if_pos h1] at hp
      exact ih _ _ hInv hp
    · rw [if_neg h1] at hp
      by_cases h2 : pyEndsWithAny fname exts
      · simp only [h2, if_true] at hp
        cases hpi : processItems top (pyJoin parent fname) (readF (pyJoin parent fname))
            (readM (splitextRoot fname) parent) [] with
        | none =>
          rw [hpi] at hp
          exact absurd hp (by simp)
        | some rs =>
          rw [hpi] at hp
          obtain ⟨prod, hout, hfile, -⟩ := processItems_spec _ _ _ _ _ _ hpi
          refine ih _ _ ?_ hp
          refine fileInv_appendAt _ _ _ (fileInv_addKey _ _ hInv) ?_
          intro r hr
          refine hfile r ?_
          rw [List.nil_append] at hout
          rwa [← hout]
      · simp only [h2, if_false] at hp
        exact ih _ _ hInv hp

theorem findLoop_fileInv (top selfF : String) (readF : String → List String)
    (readM : String → String → List (String × PyObj)) (exts : List String) :
    ∀ (walk : List (String × List String)) (m m2 : ResMap),
      (∀ kv ∈ m, ∀ r ∈ kv.2, r.obj.file = kv.1) →
      findLoop top selfF readF readM exts walk m = some m2 →
      ∀ kv ∈ m2, ∀ r ∈ kv.2, r.obj.file = kv.1 := by
  intro walk
  induction walk with
  | nil =>
    intro m m2 hInv hp
    rw [findLoop] at hp
    injection hp with h2
    rwa [← h2]
  | cons e rest ih =>
    intro m m2 hInv hp
    obtain ⟨parent, files⟩ := e
    rw [findLoop] at hp
    cases hpf : processFiles top selfF readF readM exts parent files m with
    | none =>
      rw [hpf] at hp
      exact absurd hp (by simp)
    | some m1 =>
      rw [hpf] at hp
      exact ih _ _ (processFiles_fileInv _ _ _ _ _ _ _ _ _ hInv hpf) hp

/-- C5: in every mapping produced by `find`, each record's `file` field (the
descriptor's originating file) equals the key of the entry holding it; only
definitions whose originating file is exactly the analyzed file are
retained. -/
theorem find_file_field_matches_key (top selfF : String) (readF : String → List String)
    (readM : String → String → List (String × PyObj)) (exts : List String)
    (walk : List (String × List String)) (m : ResMap)
    (h : find top selfF readF readM exts walk = some m) :
    ∀ kv ∈ m, ∀ r ∈ kv.2, r.obj.file = kv.1 :=
  findLoop_fileInv top selfF readF readM exts walk [] m (by simp) h

/-- Witness for C5 on the concrete one-file example, instantiated at the
single entry and its single record. -/
theorem find_file_field_matches_key_witness :
    (⟨exObj, "Function", ["@app.route(\x27/x\x27)"]⟩ : Result).obj.file = exPath :=
  find_file_field_matches_key "/r" "testable.py" exReadF exReadM [".py"] exWalk exMap rfl
    (exPath, [⟨exObj, "Function", ["@app.route(\x27/x\x27)"]⟩]) (by simp [exMap])
    ⟨exObj, "Function", ["@app.route(\x27/x\x27)"]⟩ (by simp)

/-! ## Skipping the analyzer's own file (C6) -/

theorem processFiles_filter_self (top selfF : String) (readF : String → List String)
    (readM : String → String → List (String × PyObj)) (exts : List String) (parent : String) :
    ∀ (files : List String) (m : ResMap),
      processFiles top selfF readF readM exts parent files m =
        processFiles top selfF readF readM exts parent (files.filter (fun f => f != selfF)) m := by
  intro files
  induction files with
  | nil =>
    intro m
    rfl
  | cons fname rest ih =>
    intro m
    by_cases h1 : fname = selfF
    · rw [List.filter_cons, if_neg (by simp [h1]), processFiles, if_pos h1]
      exact ih m
    · rw [List.filter_cons, if_pos (by simp [h1]), processFiles, if_neg h1]
      conv_rhs => rw [processFiles, if_neg h1]
      by_cases h2 : pyEndsWithAny fname exts
      · simp only [h2, if_true]
        cases hpi : processItems top (pyJoin parent fname) (readF (pyJoin parent fname))
            (readM (splitextRoot fname) parent) [] with
        | none => rfl
        | some rs => exact ih _
      · simp only [h2, if_false]
        exact ih m

/-- C6: the tree walker skips the analyzer's own source file: running `find`
is the same as running it on a walk from which every file named like the
analyzer's own file has been removed, so such a file is never analyzed and
never creates an entry. -/
theorem find_skips_self_file (top selfF : String) (readF : String → List String)
    (readM : String → String → List (String × PyObj)) (exts : List String)
    (walk : List (String × List String)) :
    find top selfF readF readM exts walk =
      find top selfF readF readM exts
        (walk.map (fun e => (e.1, e.2.filter (fun f => f != selfF)))) := by
  unfold find
  generalize ([] : ResMap) = m
  induction walk generalizing m with
  | nil => rfl
  | cons e rest ih =>
    obtain ⟨parent, files⟩ := e
    rw [List.map_cons, findLoop, findLoop, ← processFiles_filter_self]
    cases hpf : processFiles top selfF readF readM exts parent files m with
    | none => rfl
    | some m1 => exact ih m1

/-! ## Determinism (C7) -/

/-- C7: the analysis pipeline is deterministic.  The embedding of `find`
and of the serialization is a pure function of the walk order, the file
contents, the introspection results and the configuration — the source
mutates no state that survives a run — so two runs over the same unchanged
tree produce identical output. -/
theorem analyze_deterministic (top selfF : String) (readF : String → List String)
    (readM : String → String → List (String × PyObj)) (exts : List String)
    (walk : List (String × List String)) :
    analyzeOutput top selfF readF readM exts walk =
      analyzeOutput top selfF readF readM exts walk := rfl

/-! ## The reporter's record shape (C3) -/

/-- C3 (counterexample): on the end-to-end example the serialized entry for
the file is not the bare four-field record: `ResultJSONEncoder.default`
wraps each record in an extra one-field object keyed by the record's file
path. -/
theorem encoder_wraps_record :
    analyzeOutput "/r" "testable.py" exReadF exReadM [".py"] exWalk =
      some (Json.obj [(exPath, Json.arr [Json.obj [(exPath, exInner)]])]) ∧
    Json.obj [(exPath, exInner)] ≠ exInner := by
  constructor
  · rfl
  · intro h
    simp [exInner, exPath] at h

/-- C3 (amended): each file path maps to an ordered sequence of objects,
each of which is a single-field object keyed by the record's file path whose
value carries exactly the fields type, name, lineno and routes; on the
end-to-end example the entry is the single wrapped record. -/
theorem encoder_output_shape :
    analyzeOutput "/r" "testable.py" exReadF exReadM [".py"] exWalk =
      some (Json.obj [(exPath, Json.arr [Json.obj [(exPath, exInner)]])]) ∧
    exInner = Json.obj [("type", Json.str "Function"), ("name", Json.str "handler"),
      ("lineno", Json.num 3), ("routes", Json.arr [Json.str "@app.route(\x27/x\x27)"])] :=
  ⟨rfl, rfl⟩

/-! ## The key set of the result mapping (C4) -/

theorem processFiles_keys (top selfF : String) (readF : String → List String)
    (readM : String → String → List (String × PyObj)) (exts : List String) (parent : String) :
    ∀ (files : List String) (m m2 : ResMap),
      processFiles top selfF readF readM exts parent files m = some m2 →
      ∀ p, p ∈ m2.map Prod.fst ↔ p ∈ m.map Prod.fst ∨
        ∃ f ∈ files, f ≠ selfF ∧ pyEndsWithAny f exts = true ∧ p = pyJoin parent f := by
  intro files
  induction files with
  | nil =>
    intro m m2 h p
    rw [processFiles] at h
    injection h with h2
    subst h2
    simp
  | cons fname rest ih =>
    intro m m2 h p
    rw [processFiles] at h
    by_cases h1 : fname = selfF
    · rw [if_pos h1] at h
      rw [ih _ _ h p]
      constructor
      · rintro (hm | ⟨f, hf, hne, he, hp⟩)
        · exact Or.inl hm
        · exact Or.inr ⟨f, List.mem_cons_of_mem _ hf, hne, he, hp⟩
      · rintro (hm | ⟨f, hf, hne, he, hp⟩)
        · exact Or.inl hm
        · rcases List.mem_cons.mp hf with rfl | hf2
          · exact absurd h1 hne
          · exact Or.inr ⟨f, hf2, hne, he, hp⟩
    · rw [if_neg h1] at h
      by_cases h2 : pyEndsWithAny fname exts
      · simp only [h2, if_true] at h
        cases hpi : processItems top (pyJoin parent fname) (readF (pyJoin parent fname))
            (readM (splitextRoot fname) parent) [] with
        | none =>
          rw [hpi] at h
          exact absurd h (by simp)
        | some rs =>
          rw [hpi] at h
          rw [ih _ _ h p, appendAt_map_fst, mem_map_fst_addKey]
          constructor
          · rintro ((hm | rfl) | ⟨f, hf, hne, he, hp⟩)
            · exact Or.inl hm
            · exact Or.inr ⟨fname, by simp, h1, h2, rfl⟩
            · exact Or.inr ⟨f, List.mem_cons_of_mem _ hf, hne, he, hp⟩
          · rintro (hm | ⟨f, hf, hne, he, hp⟩)
            · exact Or.inl (Or.inl hm)
            · rcases List.mem_cons.mp hf with rfl | hf2
              · exact Or.inl (Or.inr hp)
              · exact Or.inr ⟨f, hf2, hne, he, hp⟩
      · simp only [h2, if_false] at h
        rw [ih _ _ h p]
        constructor
        · rintro (hm | ⟨f, hf, hne, he, hp⟩)
          · exact Or.inl hm
          · exact Or.inr ⟨f, List.mem_cons_of_mem _ hf, hne, he, hp⟩
        · rintro (hm | ⟨f, hf, hne, he, hp⟩)
          · exact Or.inl hm
          · rcases List.mem_cons.mp hf with rfl | hf2
            · exact absurd he h2
            · exact Or.inr ⟨f, hf2, hne, he, hp⟩

theorem findLoop_keys (top selfF : String) (readF : String → List String)
    (readM : String → String → List (String × PyObj)) (exts : List String) :
    ∀ (walk : List (String × List String)) (m m2 : ResMap),
      findLoop top selfF readF readM exts walk m = some m2 →
      ∀ p, p ∈ m2.map Prod.fst ↔ p ∈ m.map Prod.fst ∨
        ∃ e ∈ walk, ∃ f ∈ e.2, f ≠ selfF ∧ pyEndsWithAny f exts = true ∧ p = pyJoin e.1 f := by
  intro walk
  induction walk with
  | nil =>
    intro m m2 h p
    rw [findLoop] at h
    injection h with h2
    subst h2
    simp
  | cons e rest ih =>
    intro m m2 h p
    obtain ⟨parent, files⟩ := e
    rw [findLoop] at h
    cases hpf : processFiles top selfF readF readM exts parent files m with
    | none =>
      rw [hpf] at h
      exact absurd h (by simp)
    | some m1 =>
      rw [hpf] at h
      rw [ih _ _ h p, processFiles_keys _ _ _ _ _ _ _ _ _ hpf p]
      constructor
      · rintro ((hm | ⟨f, hf, hne, he, hp⟩) | ⟨e1, he1, f, hf, hne, he, hp⟩)
        · exact Or.inl hm
        · exact Or.inr ⟨(parent, files), by simp, f, hf, hne, he, hp⟩
        · exact Or.inr ⟨e1, List.mem_cons_of_mem _ he1, f, hf, hne, he, hp⟩
      · rintro (hm | ⟨e1, he1, f, hf, hne, he, hp⟩)
        · exact Or.inl (Or.inl hm)
        · rcases List.mem_cons.mp he1 with rfl | he2
          · exact Or.inl (Or.inr ⟨f, hf, hne, he, hp⟩)
          · exact Or.inr ⟨e1, he2, f, hf, hne, he, hp⟩

/-- C4: when the analyzer's own file name is absent from the tree, the key
set of the mapping returned by `find` is exactly the set of joined paths of
walked files whose name ends in a recognized extension; in particular every
matching file is a key even with zero retained definitions, and a file with
an unrecognized extension never is. -/
theorem find_keys_exactly_matching_files (top selfF : String) (readF : String → List String)
    (readM : String → String → List (String × PyObj)) (exts : List String)
    (walk : List (String × List String)) (m : ResMap)
    (hself : ∀ e ∈ walk, selfF ∉ e.2)
    (h : find top selfF readF readM exts walk = some m) :
    ∀ p, p ∈ m.map Prod.fst ↔
      ∃ e ∈ walk, ∃ f ∈ e.2, pyEndsWithAny f exts = true ∧ p = pyJoin e.1 f := by
  intro p
  unfold find at h
  rw [findLoop_keys _ _ _ _ _ _ _ _ h p]
  simp only [List.map_nil, List.not_mem_nil, false_or]
  constructor
  · rintro ⟨e, he, f, hf, -, hext, hp⟩
    exact ⟨e, he, f, hf, hext, hp⟩
  · rintro ⟨e, he, f, hf, hext, hp⟩
    exact ⟨e, he, f, hf, fun hEq => hself e he (hEq ▸ hf), hext, hp⟩

/-- Witness for C4 at the concrete example, instantiated at the example's
full path. -/
theorem find_keys_exactly_matching_files_witness :
    exPath ∈ exMap.map Prod.fst ↔
      ∃ e ∈ exWalk, ∃ f ∈ e.2, pyEndsWithAny f [".py"] = true ∧ exPath = pyJoin e.1 f :=
  find_keys_exactly_matching_files "/r" "testable.py" exReadF exReadM [".py"] exWalk exMap
    (by decide) rfl exPath

/-! ## Distinct definition names per entry (C9) -/

theorem pathsOfDir_cons_self (selfF : String) (exts : List String) (parent fname : String)
    (rest : List String) (h : fname = selfF) :
    pathsOfDir selfF exts parent (fname :: rest) = pathsOfDir selfF exts parent rest := by
  simp [pathsOfDir, List.filter_cons, h]

theorem pathsOfDir_cons_noext (selfF : String) (exts : List String) (parent fname : String)
    (rest : List String) (h : pyEndsWithAny fname exts = false) :
    pathsOfDir selfF exts parent (fname :: rest) = pathsOfDir selfF exts parent rest := by
  simp [pathsOfDir, List.filter_cons, h]

theorem pathsOfDir_cons_match (selfF : String) (exts : List String) (parent fname : String)
    (rest : List String) (h1 : fname ≠ selfF) (h2 : pyEndsWithAny fname exts = true) :
    pathsOfDir selfF exts parent (fname :: rest) =
      pyJoin parent fname :: pathsOfDir selfF exts parent rest := by
  simp [pathsOfDir, List.filter_cons, h1, h2]

theorem appendAt_not_mem (k : String) (rs : List Result) :
    ∀ m : ResMap, k ∉ m.map Prod.fst → appendAt m k rs = m := by
  intro m
  induction m with
  | nil =>
    intro
    rfl
  | cons kv m ih =>
    intro h
    simp only [List.map_cons, List.mem_cons] at h
    push_neg at h
    obtain ⟨h1, h2⟩ := h
    simp only [appendAt, List.map_cons] at *
    rw [if_neg (fun he => h1 he.symm), ih h2]

theorem addKey_not_mem (k : String) (m : ResMap) (h : k ∉ m.map Prod.fst) :
    addKey m k = m ++ [(k, [])] := by
  unfold addKey
  rw [if_neg]
  intro hany
  obtain ⟨kv, hkv, he⟩ := List.any_eq_true.mp hany
  exact h (List.mem_map.mpr ⟨kv, hkv, of_decide_eq_true he⟩)

theorem appendAt_addKey_not_mem (k : String) (rs : List Result) (m : ResMap)
    (h : k ∉ m.map Prod.fst) :
    appendAt (addKey m k) k rs = m ++ [(k, rs)] := by
  rw [addKey_not_mem k m h]
  unfold appendAt
  rw [List.map_append]
  congr 1
  · exact appendAt_not_mem k rs m h
  · simp

theorem processFiles_nodup (top selfF : String) (readF : String → List String)
    (readM : String → String → List (String × PyObj)) (exts : List String) (parent : String) :
    ∀ (files : List String) (m m2 : ResMap),
      (∀ f ∈ files, ((readM (splitextRoot f) parent).map Prod.fst).Nodup ∧
        ∀ q ∈ readM (splitextRoot f) parent, q.2.name = q.1) →
      (m.map Prod.fst ++ pathsOfDir selfF exts parent files).Nodup →
      (∀ kv ∈ m, (kv.2.map (fun r => r.obj.name)).Nodup) →
      processFiles top selfF readF readM exts parent files m = some m2 →
      (∀ kv ∈ m2, (kv.2.map (fun r => r.obj.name)).Nodup) ∧
      m2.map Prod.fst = m.map Prod.fst ++ pathsOfDir selfF exts parent files := by
  intro files
  induction files with
  | nil =>
    intro m m2 hd hnd hP h
    rw [processFiles] at h
    injection h with h2
    subst h2
    refine ⟨hP, ?_⟩
    simp [pathsOfDir]
  | cons fname rest ih =>
    intro m m2 hd hnd hP h
    rw [processFiles] at h
    by_cases h1 : fname = selfF
    · rw [if_pos h1] at h
      rw [pathsOfDir_cons_self _ _ _ _ _ h1] at hnd ⊢
      exact ih _ _ (fun f hf => hd f (by simp [hf])) hnd hP h
    · rw [if_neg h1] at h
      by_cases h2 : pyEndsWithAny fname exts
      · simp only [h2, if_true] at h
        cases hpi : processItems top (pyJoin parent fname) (readF (pyJoin parent fname))
            (readM (splitextRoot fname) parent) [] with
        | none =>
          rw [hpi] at h
          exact absurd h (by simp)
        | some rs =>
          rw [hpi] at h
          have h3 : processFiles top selfF readF readM exts parent rest
              (appendAt (addKey m (pyJoin parent fname)) (pyJoin parent fname) rs) =
              some m2 := h
          rw [pathsOfDir_cons_match _ _ _ _ _ h1 h2] at hnd ⊢
          have hfull : pyJoin parent fname ∉ m.map Prod.fst := by
            rcases List.nodup_append.mp hnd with ⟨-, -, hdisj⟩
            intro hmem
            exact hdisj hmem (by simp)
          rw [appendAt_addKey_not_mem _ _ _ hfull] at h3
          obtain ⟨prod, hout, -, hnames⟩ := processItems_spec _ _ _ _ _ _ hpi
          have hrp : rs = prod := by simpa using hout
          subst hrp
          have hrsnodup : (rs.map (fun r => r.obj.name)).Nodup :=
            List.Nodup.sublist (hnames (hd fname (by simp)).2) (hd fname (by simp)).1
          have hP2 : ∀ kv ∈ m ++ [(pyJoin parent fname, rs)],
              (kv.2.map (fun r => r.obj.name)).Nodup := by
            intro kv hkv
            rcases List.mem_append.mp hkv with hkv | hkv
            · exact hP kv hkv
            · have hkv2 : kv = (pyJoin parent fname, rs) := by simpa using hkv
              subst hkv2
              exact hrsnodup
          have hnd2 : ((m ++ [(pyJoin parent fname, rs)]).map Prod.fst ++
              pathsOfDir selfF exts parent rest).Nodup := by
            rw [List.map_append, List.append_assoc]
            simpa using hnd
          obtain ⟨hPout, hkeys⟩ := ih _ _ (fun f hf => hd f (by simp [hf])) hnd2 hP2 h3
          refine ⟨hPout, ?_⟩
          rw [hkeys, List.map_append, List.append_assoc]
          simp
      · simp only [h2, if_false] at h
        have h2f : pyEndsWithAny fname exts = false := by
          cases he : pyEndsWithAny fname exts
          · rfl
          · exact absurd he h2
        rw [pathsOfDir_cons_noext _ _ _ _ _ h2f] at hnd ⊢
        exact ih _ _ (fun f hf => hd f (by simp [hf])) hnd hP h

theorem findLoop_nodup (top selfF : String) (readF : String → List String)
    (readM : String → String → List (String × PyObj)) (exts : List String) :
    ∀ (walk : List (String × List String)) (m m2 : ResMap),
      (∀ e ∈ walk, ∀ f ∈ e.2, ((readM (splitextRoot f) e.1).map Prod.fst).Nodup ∧
        ∀ q ∈ readM (splitextRoot f) e.1, q.2.name = q.1) →
      (m.map Prod.fst ++ allPaths selfF exts walk).Nodup →
      (∀ kv ∈ m, (kv.2.map (fun r => r.obj.name)).Nodup) →
      findLoop top selfF readF readM exts walk m = some m2 →
      ∀ kv ∈ m2, (kv.2.map (fun r => r.obj.name)).Nodup := by
  intro walk
  induction walk with
  | nil =>
    intro m m2 hd hnd hP h
    rw [findLoop] at h
    injection h with h2
    subst h2
    exact hP
  | cons e rest ih =>
    intro m m2 hd hnd hP h
    obtain ⟨parent, files⟩ := e
    rw [findLoop] at h
    cases hpf : processFiles top selfF readF readM exts parent files m with
    | none =>
      rw [hpf] at h
      exact absurd h (by simp)
    | some m1 =>
      rw [hpf] at h
      rw [show allPaths selfF exts ((parent, files) :: rest) =
        pathsOfDir selfF exts parent files ++ allPaths selfF exts rest from rfl] at hnd
      rw [← List.append_assoc] at hnd
      have hnd1 : (m.map Prod.fst ++ pathsOfDir selfF exts parent files).Nodup :=
        List.Nodup.sublist (List.sublist_append_left _ _) hnd
      obtain ⟨hP1, hkeys1⟩ := processFiles_nodup _ _ _ _ _ _ _ _ _
        (fun f hf => hd (parent, files) (by simp) f hf) hnd1 hP hpf
      refine ih _ _ (fun e1 he1 f hf => hd e1 (List.mem_cons_of_mem _ he1) f hf) ?_ hP1 h
      rw [hkeys1]
      exact hnd

/-- C9: each entry of the mapping returned by `find` has pairwise distinct
definition names, provided the introspection results behave like Python
dicts keyed by definition name (distinct keys, each descriptor named by its
key) and distinct walked files have distinct full paths. -/
theorem find_entry_names_nodup (top selfF : String) (readF : String → List String)
    (readM : String → String → List (String × PyObj)) (exts : List String)
    (walk : List (String × List String)) (m : ResMap)
    (hdict : ∀ e ∈ walk, ∀ f ∈ e.2, ((readM (splitextRoot f) e.1).map Prod.fst).Nodup ∧
      ∀ q ∈ readM (splitextRoot f) e.1, q.2.name = q.1)
    (hpaths : (allPaths selfF exts walk).Nodup)
    (h : find top selfF readF readM exts walk = some m) :
    ∀ kv ∈ m, (kv.2.map (fun r => r.obj.name)).Nodup := by
  unfold find at h
  exact findLoop_nodup top selfF readF readM exts walk [] m hdict (by simpa using hpaths)
    (by simp) h

/-- Witness for C9: the example file declares the two names handler and
helper; the resulting entry's names are distinct. -/
theorem find_entry_names_nodup_witness :
    (([⟨exObj, "Function", ["@app.route(\x27/x\x27)"]⟩, ⟨exObjB, "Function", []⟩] :
      List Result).map (fun r => r.obj.name)).Nodup :=
  find_entry_names_nodup "/r" "testable.py" exReadF exReadM2 [".py"] exWalk exMap2
    (by decide) (by decide) rfl
    (exPath, [⟨exObj, "Function", ["@app.route(\x27/x\x27)"]⟩, ⟨exObjB, "Function", []⟩])
    (by simp [exMap2])

end Testable
